import Mathlib

/-!
# ltsvq: dynamic-schema ingestion, query and result formatting

A shallow embedding of `main.go`.  The program reads LTSV lines, stores each
record in an in-memory SQL table `ltsv` whose columns are added on demand,
runs one query and prints every result row as `column:value<TAB>` fields.

The SQL engine (`database/sql` + sqlite3) and the LTSV parser
(`github.com/Songmu/go-ltsv`) are external packages.  The embedding keeps the
code of `main.go` as it is written and talks to those packages through

* `Stmt`  : the two statement shapes `Insert` sends with `db.Exec`,
* `DB`    : the relation the statements act on, together with the history of
            the statements sent,
* `Env`   : the parts of the external packages the code cannot see into
            (the parser, the statements the engine refuses, the query
            evaluator).

Theorems about `Insert`, `Query` and the ingestion loop hold for every `Env`.
-/

namespace Ltsvq

/-! ## Go values -/

/-- A Go `map[string]string`: finitely many entries with pairwise distinct
keys.  The order of `entries` is the order in which a `range` loop visits the
map; Go leaves that order unspecified, so nothing below may depend on it. -/
abbrev GoMap := AList (fun _ : String => String)

/-- The Go index expression `m[k]`: the stored value, or the zero value `""`
when `k` is not a key of `m`. -/
def mapIndex (m : GoMap) (k : String) : String :=
  (m.lookup k).getD ""

/-- The Go assignment `m[k] = v`. -/
def mapAssign (m : GoMap) (k v : String) : GoMap :=
  m.insert k v

/-- Build a map from key/value pairs by successive assignments, so that a
later pair with the same key overwrites an earlier one. -/
def mapOfPairs (kvs : List (String × String)) : GoMap :=
  kvs.foldl (fun m kv => mapAssign m kv.1 kv.2) ∅

/-- `sort.Strings`: ascending order of the strings compared element by
element (Go compares bytes; on UTF-8 text that is the order of the code
points). -/
def sortStrings (l : List String) : List String :=
  l.insertionSort (fun x y => x.toList ≤ y.toList)

/-- `unicode.IsSpace`, the characters `strings.TrimSpace` removes. -/
def isSpace (c : Char) : Bool :=
  let n := c.toNat
  n == 9 || n == 10 || n == 11 || n == 12 || n == 13 || n == 32 ||
  n == 0x85 || n == 0xA0 || n == 0x1680 || (0x2000 ≤ n && n ≤ 0x200A) ||
  n == 0x2028 || n == 0x2029 || n == 0x202F || n == 0x205F || n == 0x3000

/-- `strings.TrimSpace`. -/
def trimSpace (s : String) : String :=
  ⟨((s.toList.dropWhile isSpace).reverse.dropWhile isSpace).reverse⟩

/-! ## The output sink -/

/-- The output file as `main` uses it: a state and a write that either
yields the next state or reports a fault. -/
structure Writer (σ : Type) where
  write : σ → String → Except String σ

/-- An in-memory sink that appends every chunk and never faults. -/
def bufWriter : Writer String :=
  ⟨fun out s => .ok (out ++ s)⟩

/-! ## The relation and the statements sent to it -/

/-- A stored row: its non-null cells by column name.  A column without an
entry is a null cell of the row. -/
abbrev Row := AList (fun _ : String => String)

/-- The cell of a stored row: `none` is SQL `NULL`. -/
def cell (r : Row) (c : String) : Option String :=
  r.lookup c

/-- The statements `Insert` sends through `db.Exec`:
`ALTER TABLE ltsv ADD COLUMN <name> TEXT;` and
`INSERT INTO ltsv (<names>) VALUES (?,...,?)` with the bound `values`.
`Insert` splices the key into the SQL text as it is.  The embedding
identifies a statement with the columns it names, which is what the text
means for a key that is a plain SQL identifier; for any other key it covers
the engine refusing the statement (`Env.faults`), not the engine reading the
text as something else. -/
inductive Stmt
  | addColumn (name : String)
  | insertRow (names : List String) (values : List String)
deriving DecidableEq, Repr

/-- The table `ltsv`: its column names in order of creation, its rows in
order of insertion, and the history of the statements sent with `db.Exec`,
each with whether the engine carried it out. -/
structure DB where
  schema : List String
  rows : List Row
  log : List (Stmt × Bool)

/-- The cells of one result row of a query, as the driver hands them to
`rows.Scan`: `none` is `NULL`, `some s` a value whose text is `s`. -/
abbrev Cells := List (Option String)

/-- What `main.go` cannot see into.
* `unmarshal` is `ltsv.Unmarshal` into a `map[string]string`;
* `faults db s` says that the engine refuses statement `s` in state `db` for
  a reason of its own (a name its grammar rejects, a storage fault);
* `eval db q` is the engine running the query text `q`: the result column
  names and the result rows, or an error. -/
structure Env where
  unmarshal : String → Except String GoMap
  faults : DB → Stmt → Bool
  eval : DB → String → Except String (List String × List Cells)

/-- The row an `INSERT` with the given column list and bound values
stores. -/
def mkRow (names values : List String) : Row :=
  (List.zipWith (fun k v => (⟨k, v⟩ : (_ : String) × String)) names values).toAList

/-- Modelled from the spec: the effect of one statement on the relation
(the SQL engine is an external package).  `ADD COLUMN` appends a nullable
text column and is refused for a name the table already has; `INSERT` appends
one row holding the bound values in the named columns and null elsewhere, and
is refused for an empty column list, an unknown column or a wrong number of
values.  A refused statement changes nothing. -/
def step (E : Env) (db : DB) : Stmt → Except String DB
  | .addColumn name =>
    if E.faults db (.addColumn name) then .error ("cannot add column " ++ name)
    else if name ∈ db.schema then .error ("duplicate column name: " ++ name)
    else .ok { db with schema := db.schema ++ [name] }
  | .insertRow names values =>
    if E.faults db (.insertRow names values) then .error "cannot insert row"
    else if names = [] then .error "syntax error"
    else if names.any (fun n => decide (n ∉ db.schema)) then
      .error "table ltsv has no such column"
    else if names.length ≠ values.length then .error "wrong number of values"
    else .ok { db with rows := db.rows ++ [mkRow names values] }

/-- `db.Exec`: send one statement, record it in the history, and return the
new state of the table with the error, if any. -/
def Exec (E : Env) (db : DB) (s : Stmt) : DB × Option String :=
  match step E db s with
  | .ok db1 => ({ db1 with log := db.log ++ [(s, true)] }, none)
  | .error e => ({ db with log := db.log ++ [(s, false)] }, some e)

/-! ## `ltsvTable` -/

/-- The Go struct `ltsvTable`: the database handle and the set of column names
the program has added so far. -/
structure ltsvTable where
  db : DB
  columns : Finset String

/-- `newLTSVTable`: `CREATE TABLE ltsv (_dummy text);` and an empty
`columns` set.  Opening the in-memory database and creating the table are
taken to succeed (`main` stops at once otherwise). -/
def newLTSVTable : ltsvTable :=
  { db := { schema := ["_dummy"], rows := [], log := [] }, columns := ∅ }

/-- The `for k, v := range mapp` loop of `Insert` (lines 160-172): for a key
that is not in `t.columns` send `ADD COLUMN`, return at once if that fails,
otherwise remember the key; then append to `columnNames` and `columnValues`. -/
def addColumns (E : Env) :
    List ((_ : String) × String) → ltsvTable → List String → List String →
      ltsvTable × Except String (List String × List String)
  | [], t, columnNames, columnValues => (t, .ok (columnNames, columnValues))
  | ⟨k, v⟩ :: rest, t, columnNames, columnValues =>
    if k ∈ t.columns then
      addColumns E rest t (columnNames ++ [k]) (columnValues ++ [v])
    else
      match Exec E t.db (.addColumn k) with
      | (db1, some e) => ({ t with db := db1 }, .error e)
      | (db1, none) =>
        addColumns E rest { db := db1, columns := insert k t.columns }
          (columnNames ++ [k]) (columnValues ++ [v])

/-- `ltsvTable.Insert` (lines 150-187).  The table is updated in place in
Go, so the state after the call is returned together with the error.
`columnBinds` holds one `?` per name and is part of `Stmt.insertRow`. -/
def Insert (E : Env) (t : ltsvTable) (rawLTSV : String) : ltsvTable × Option String :=
  match E.unmarshal rawLTSV with
  | .error e => (t, some e)
  | .ok mapp =>
    match addColumns E mapp.entries t [] [] with
    | (t1, .error e) => (t1, some e)
    | (t1, .ok (columnNames, columnValues)) =>
      match Exec E t1.db (.insertRow columnNames columnValues) with
      | (db2, err) => ({ t1 with db := db2 }, err)

/-- `rows.Scan` into `*[]byte` followed by `string(*vv)`: a `NULL` cell
leaves a nil slice, whose string is empty, and any other cell leaves its
text.  Every value a driver yields converts to bytes, so the error branch of
`rows.Scan` (line 211, logged and not fatal) is not taken. -/
def cellText : Option String → String
  | none => ""
  | some s => s

/-- The body of the `rows.Next()` loop of `Query` (lines 203-221): one
destination per result column, then `r[columns[i]] = string(*vv)` for
`i = 0, 1, ...`. -/
def scanRow (columns : List String) (cells : Cells) : GoMap :=
  let values := (List.range columns.length).map (fun i => cellText (cells.getD i none))
  mapOfPairs (columns.zip values)

/-- `ltsvTable.Query` (lines 189-225). -/
def Query (E : Env) (t : ltsvTable) (s : String) : Except String (List GoMap) :=
  match E.eval t.db s with
  | .error e => .error e
  | .ok (columns, rows) => .ok (rows.map (scanRow columns))

/-! ## `main` -/

/-- The guard of lines 122-128: while `outputColumns` is empty, take the keys
of the current row and sort them. -/
def chooseColumns (outputColumns : List String) (r : GoMap) : List String :=
  if outputColumns.length = 0 then sortStrings r.keys else outputColumns

/-- The text written for column `c` of row `r` (line 131). -/
def fieldText (r : GoMap) (c : String) : String :=
  c ++ ":" ++ mapIndex r c ++ "\t"

/-- The loop of lines 130-134: one `WriteString` per output column; a write
fault ends the program (`log.Fatalf`). -/
def writeFields {σ : Type} (w : Writer σ) (r : GoMap) : List String → σ → Except String σ
  | [], out => .ok out
  | c :: cs, out =>
    match w.write out (fieldText r c) with
    | .error e => .error ("failed to write bytes: " ++ e)
    | .ok out1 => writeFields w r cs out1

/-- The loop of lines 114-138 over the result set, started with the current
value of `outputColumns`. -/
def writeRows {σ : Type} (w : Writer σ) : List String → List GoMap → σ → Except String σ
  | _, [], out => .ok out
  | outputColumns, r :: rs, out =>
    match writeFields w r (chooseColumns outputColumns r) out with
    | .error e => .error e
    | .ok out1 =>
      match w.write out1 "\n" with
      | .error e => .error ("failed to write bytes: " ++ e)
      | .ok out2 => writeRows w (chooseColumns outputColumns r) rs out2

/-- The result formatter of `main`: `var outputColumns []string` and the
loop over `resultSet`. -/
def formatRows {σ : Type} (w : Writer σ) (resultSet : List GoMap) (out : σ) : Except String σ :=
  writeRows w [] resultSet out

/-- The value of `outputColumns` during each iteration of the loop of lines
114-138, one entry per result row. -/
def columnTrace : List String → List GoMap → List (List String)
  | _, [] => []
  | outputColumns, r :: rs =>
    chooseColumns outputColumns r :: columnTrace (chooseColumns outputColumns r) rs

/-- The ingestion loop of `main` (lines 96-107): every line read is trimmed
and handed to `Insert`; an error is logged and the loop goes on. -/
def ingest (E : Env) : ltsvTable → List String → ltsvTable
  | t, [] => t
  | t, line :: rest => ingest E (Insert E t (trimSpace line)).1 rest

/-- The function `main` after argument parsing (lines 90-138): `input` holds
the lines `ReadLine` returns, `query` is the `-q` argument. -/
def main {σ : Type} (E : Env) (w : Writer σ) (input : List String) (query : String)
    (out : σ) : Except String σ :=
  match Query E (ingest E newLTSVTable input) query with
  | .error e => .error ("failed to query: " ++ e)
  | .ok resultSet => formatRows w resultSet out

/-! ## Specification-side definitions -/

/-- The chunks of a list written one after the other. -/
def concat (l : List String) : String :=
  l.foldr (· ++ ·) ""

/-- The output line the specification prescribes for row `r` under the column
sequence `cols`: `c:r[c]<TAB>` for every column in order, then a newline. -/
def lineText (cols : List String) (r : GoMap) : String :=
  concat (cols.map (fun c => c ++ ":" ++ mapIndex r c ++ "\t")) ++ "\n"

/-- The column sequence for line number `i` (from 0): the sorted keys of the
first row, among rows `0..i`, that has a key at all; empty when none has. -/
def columnsAt (rows : List GoMap) (i : Nat) : List String :=
  match (rows.take (i + 1)).find? (fun r => decide (r.keys ≠ [])) with
  | some r => sortStrings r.keys
  | none => []

/-- The keys of `ks`, in order, for which the loop of `Insert` sends
`ADD COLUMN` when it starts with the known set `known`: those not known yet,
each at its first occurrence. -/
def freshKeys : Finset String → List String → List String
  | _, [] => []
  | known, k :: ks =>
    if k ∈ known then freshKeys known ks else k :: freshKeys (insert k known) ks

/-- The discipline of column additions over a stretch `seg` of the statement
history that starts with the known set `known` and ends with `known1`: no
addition is sent for a name already known, no addition is sent for a name
after one for it was carried out, and the names known at the end are those
known before together with those whose addition was carried out. -/
def IssuedOnce (known : Finset String) (seg : List (Stmt × Bool))
    (known1 : Finset String) : Prop :=
  (∀ k ∈ known, ∀ b, (Stmt.addColumn k, b) ∉ seg) ∧
  seg.Pairwise (fun x y => ∀ k, x = (Stmt.addColumn k, true) → ∀ b, y ≠ (Stmt.addColumn k, b)) ∧
  (∀ k, k ∈ known1 ↔ k ∈ known ∨ (Stmt.addColumn k, true) ∈ seg)

/-- The row that a parsed record becomes: the `INSERT` names the record's
keys and binds the record's values, in the order of the `range` loop. -/
def recordRow (m : GoMap) : Row :=
  mkRow m.keys (m.entries.map (·.2))

/-- The rows of the lines whose `Insert` returned no error, in input order,
when the ingestion loop starts in table state `t`. -/
def acceptedRows (E : Env) : ltsvTable → List String → List Row
  | _, [] => []
  | t, line :: rest =>
    (match (Insert E t (trimSpace line)).2, E.unmarshal (trimSpace line) with
      | none, .ok m => [recordRow m]
      | _, _ => []) ++ acceptedRows E (Insert E t (trimSpace line)).1 rest

/-! ## Reference collaborators for the worked example -/

/-- Split at every occurrence of `sep` (`strings.Split` with a one character
separator). -/
def splitOn (sep : Char) : List Char → List (List Char)
  | [] => [[]]
  | c :: cs =>
    if c = sep then [] :: splitOn sep cs
    else
      match splitOn sep cs with
      | [] => [[c]]
      | h :: t => (c :: h) :: t

/-- Cut at the first occurrence of `sep`, if there is one. -/
def cutAt (sep : Char) : List Char → Option (List Char × List Char)
  | [] => none
  | c :: cs =>
    if c = sep then some ([], cs)
    else (cutAt sep cs).map (fun p => (c :: p.1, p.2))

/-- Split every field token into its key and its value. -/
def parseFields : List (List Char) → Except String (List (String × String))
  | [] => .ok []
  | f :: fs =>
    match cutAt ':' f with
    | none => .error "not a ltsv"
    | some (k, v) =>
      if k = [] then .error "not a ltsv"
      else
        match parseFields fs with
        | .error e => .error e
        | .ok kvs => .ok ((⟨k⟩, ⟨v⟩) :: kvs)

/-- Modelled from the spec: the record parser `ltsv.Unmarshal` of the
external package go-ltsv (spec 4.1 and 6).  The line is stripped of leading
and trailing whitespace and split at tabs; every field is split at its first
colon; a field without a colon or with an empty key fails the whole line;
values are kept verbatim and a repeated key keeps its last value. -/
def unmarshal (data : String) : Except String GoMap :=
  match parseFields (splitOn '\t' (trimSpace data).toList) with
  | .error e => .error e
  | .ok kvs => .ok (mapOfPairs kvs)

/-- Remove the leading `p` from `s`, if `s` starts with it. -/
def dropLeading : List Char → List Char → Option (List Char)
  | [], s => some s
  | _ :: _, [] => none
  | a :: p, b :: s => if a = b then dropLeading p s else none

/-- Modelled from the spec: the query engine on the projection queries
`SELECT c1,...,cn FROM ltsv` (spec 4.2 and 8): the result columns are the
named columns, the result rows are the stored rows in insertion order, and a
column the table does not have is an error.  Any other query text is outside
this evaluator and reported as an error. -/
def selectEval (db : DB) (q : String) : Except String (List String × List Cells) :=
  match dropLeading "SELECT ".toList q.toList with
  | none => .error "unsupported query"
  | some rest =>
    match dropLeading " FROM ltsv".toList.reverse rest.reverse with
    | none => .error "unsupported query"
    | some revCols =>
      let cols := (splitOn ',' revCols.reverse).map String.mk
      if cols.any (fun c => decide (c ∉ db.schema)) then .error "no such column"
      else .ok (cols, db.rows.map (fun r => cols.map (cell r)))

/-- The collaborators of the worked example: the parser and the projection
evaluator above, and an engine that refuses nothing on its own. -/
def refEnv : Env :=
  { unmarshal := unmarshal, faults := fun _ _ => false, eval := selectEval }

/-- The collaborators `E` with the two lines and the query of the worked
example pinned: the lines parse to `m1` and `m2`, no statement is refused on
the engine's own account, and the query is the projection. -/
def exampleEnv (E : Env) (m1 m2 : GoMap) : Env where
  unmarshal := fun s =>
    if s = "a:1\tb:2" then .ok m1
    else if s = "b:3\tc:4" then .ok m2 else E.unmarshal s
  faults := fun _ _ => false
  eval := fun db q =>
    if q = "SELECT a,b,c FROM ltsv" then selectEval db q else E.eval db q

/-! ## Sorting -/

theorem sortStrings_perm (l : List String) : (sortStrings l).Perm l :=
  List.perm_insertionSort _ l

theorem mem_sortStrings {l : List String} {c : String} : c ∈ sortStrings l ↔ c ∈ l :=
  (sortStrings_perm l).mem_iff

theorem sortStrings_sorted_le (l : List String) : (sortStrings l).Sorted (· ≤ ·) := by
  have h : (fun x y : String => x.toList ≤ y.toList) = (fun x y : String => x ≤ y) := by
    funext x y
    exact propext String.le_iff_toList_le.symm
  have hs : (l.insertionSort (fun x y : String => x ≤ y)).Sorted (· ≤ ·) :=
    List.sorted_insertionSort _ l
  unfold sortStrings
  convert hs using 2

theorem sortStrings_sorted_lt {l : List String} (h : l.Nodup) :
    (sortStrings l).Sorted (· < ·) :=
  (sortStrings_sorted_le l).lt_of_le ((sortStrings_perm l).nodup_iff.mpr h)

theorem sortStrings_eq_nil {l : List String} : sortStrings l = [] ↔ l = [] := by
  constructor
  · intro h
    have hp := sortStrings_perm l
    rw [h] at hp
    exact hp.symm.eq_nil
  · intro h
    subst h
    rfl

/-! ## The result formatter -/

theorem lineText_eq (cols : List String) (r : GoMap) :
    lineText cols r = concat (cols.map (fieldText r)) ++ "\n" := rfl

theorem writeFields_buf (r : GoMap) (cols : List String) (out : String) :
    writeFields bufWriter r cols out = .ok (out ++ concat (cols.map (fieldText r))) := by
  induction cols generalizing out with
  | nil => simp [writeFields, concat]
  | cons c cs ih =>
    simp only [writeFields, bufWriter, List.map_cons, concat, List.foldr_cons]
    have h := ih (out ++ fieldText r c)
    simp only [bufWriter, concat] at h
    rw [h, String.append_assoc]

theorem writeRows_buf (oc : List String) (rows : List GoMap) (out : String) :
    writeRows bufWriter oc rows out =
      .ok (out ++ concat (List.zipWith lineText (columnTrace oc rows) rows)) := by
  induction rows generalizing oc out with
  | nil => simp [writeRows, columnTrace, concat]
  | cons r rs ih =>
    simp only [writeRows, writeFields_buf, columnTrace, List.zipWith_cons_cons, concat,
      List.foldr_cons]
    simp only [bufWriter]
    have h := ih (chooseColumns oc r)
      (out ++ concat (List.map (fieldText r) (chooseColumns oc r)) ++ "\n")
    simp only [bufWriter, concat] at h
    rw [h, lineText_eq]
    simp only [concat, String.append_assoc]

theorem columnTrace_length (oc : List String) (rows : List GoMap) :
    (columnTrace oc rows).length = rows.length := by
  induction rows generalizing oc with
  | nil => rfl
  | cons r rs ih => simp [columnTrace, ih]

theorem chooseColumns_of_ne_nil {oc : List String} (h : oc ≠ []) (r : GoMap) :
    chooseColumns oc r = oc := by
  unfold chooseColumns
  rw [if_neg]
  simpa [List.length_eq_zero] using h

theorem columnTrace_of_ne_nil {oc : List String} (h : oc ≠ []) (rows : List GoMap) :
    columnTrace oc rows = List.replicate rows.length oc := by
  induction rows with
  | nil => rfl
  | cons r rs ih => simp [columnTrace, chooseColumns_of_ne_nil h, ih, List.replicate_succ]

theorem columnTrace_nil_get (rows : List GoMap) (i : Nat) (h : i < rows.length) :
    (columnTrace [] rows)[i]? = some (columnsAt rows i) := by
  induction rows generalizing i with
  | nil => simp at h
  | cons r rs ih =>
    by_cases hk : r.keys = []
    · have hc : chooseColumns [] r = [] := by
        simp [chooseColumns, hk, sortStrings_eq_nil]
      cases i with
      | zero => simp [columnTrace, hc, columnsAt, hk]
      | succ j =>
        have hj : j < rs.length := by simpa using h
        simp only [columnTrace, hc, List.getElem?_cons_succ, ih j hj]
        simp [columnsAt, hk]
    · have hc : chooseColumns [] r = sortStrings r.keys := by
        simp [chooseColumns]
      have hne : sortStrings r.keys ≠ [] := fun h0 => hk (sortStrings_eq_nil.mp h0)
      simp only [columnTrace, hc, columnTrace_of_ne_nil hne]
      rw [← List.replicate_succ, List.getElem?_replicate]
      simp only [columnsAt, List.take_succ_cons, List.find?_cons, hk, ne_eq, not_false_eq_true,
        decide_True]
      exact if_pos h

theorem writeFields_total {σ : Type} (w : Writer σ)
    (hw : ∀ s x, ∃ s1, w.write s x = .ok s1) (r : GoMap) (cols : List String) (out : σ) :
    ∃ out1, writeFields w r cols out = .ok out1 := by
  induction cols generalizing out with
  | nil => exact ⟨out, rfl⟩
  | cons c cs ih =>
    obtain ⟨s1, h1⟩ := hw out (fieldText r c)
    obtain ⟨s2, h2⟩ := ih s1
    exact ⟨s2, by simp only [writeFields, h1, h2]⟩

theorem writeRows_total {σ : Type} (w : Writer σ)
    (hw : ∀ s x, ∃ s1, w.write s x = .ok s1) (oc : List String) (rows : List GoMap)
    (out : σ) : ∃ out1, writeRows w oc rows out = .ok out1 := by
  induction rows generalizing oc out with
  | nil => exact ⟨out, rfl⟩
  | cons r rs ih =>
    obtain ⟨s1, h1⟩ := writeFields_total w hw r (chooseColumns oc r) out
    obtain ⟨s2, h2⟩ := hw s1 "\n"
    obtain ⟨s3, h3⟩ := ih (chooseColumns oc r) s2
    exact ⟨s3, by simp only [writeRows, h1, h2, h3]⟩

/-! ## Statements and the column loop -/

theorem Exec_cases (E : Env) (db : DB) (s : Stmt) :
    (∃ db1, step E db s = .ok db1 ∧
      Exec E db s = ({ db1 with log := db.log ++ [(s, true)] }, none)) ∨
    (∃ e, step E db s = .error e ∧
      Exec E db s = ({ db with log := db.log ++ [(s, false)] }, some e)) := by
  unfold Exec
  cases h : step E db s with
  | ok db1 => exact Or.inl ⟨db1, rfl, rfl⟩
  | error e => exact Or.inr ⟨e, rfl, rfl⟩

theorem step_addColumn_ok {E : Env} {db db1 : DB} {k : String}
    (h : step E db (.addColumn k) = .ok db1) :
    db1 = { db with schema := db.schema ++ [k] } ∧ k ∉ db.schema := by
  simp only [step] at h
  split_ifs at h with h1 h2
  simp only [Except.ok.injEq] at h
  exact ⟨h.symm, h2⟩

theorem step_insertRow_ok {E : Env} {db db1 : DB} {ns vs : List String}
    (h : step E db (.insertRow ns vs) = .ok db1) :
    db1 = { db with rows := db.rows ++ [mkRow ns vs] } := by
  simp only [step] at h
  split_ifs at h
  simp only [Except.ok.injEq] at h
  exact h.symm

theorem Exec_addColumn_none {E : Env} {db db1 : DB} {k : String}
    (h : Exec E db (.addColumn k) = (db1, none)) :
    db1.schema = db.schema ++ [k] ∧ db1.rows = db.rows ∧
      db1.log = db.log ++ [(.addColumn k, true)] := by
  rcases Exec_cases E db (.addColumn k) with ⟨d, hs, he⟩ | ⟨e, _, he⟩
  · rw [he] at h
    obtain ⟨hd, _⟩ := step_addColumn_ok hs
    simp only [Prod.mk.injEq, and_true] at h
    subst h; subst hd
    exact ⟨rfl, rfl, rfl⟩
  · rw [he] at h
    simp at h

theorem Exec_some {E : Env} {db db1 : DB} {s : Stmt} {e : String}
    (h : Exec E db s = (db1, some e)) :
    db1.schema = db.schema ∧ db1.rows = db.rows ∧ db1.log = db.log ++ [(s, false)] := by
  rcases Exec_cases E db s with ⟨d, _, he⟩ | ⟨e1, _, he⟩
  · rw [he] at h
    simp at h
  · rw [he] at h
    simp only [Prod.mk.injEq] at h
    obtain ⟨h1, _⟩ := h
    subst h1
    exact ⟨rfl, rfl, rfl⟩

theorem Exec_insertRow_none {E : Env} {db db1 : DB} {ns vs : List String}
    (h : Exec E db (.insertRow ns vs) = (db1, none)) :
    db1.schema = db.schema ∧ db1.rows = db.rows ++ [mkRow ns vs] ∧
      db1.log = db.log ++ [(.insertRow ns vs, true)] := by
  rcases Exec_cases E db (.insertRow ns vs) with ⟨d, hs, he⟩ | ⟨e, _, he⟩
  · rw [he] at h
    have hd := step_insertRow_ok hs
    simp only [Prod.mk.injEq, and_true] at h
    subst h; subst hd
    exact ⟨rfl, rfl, rfl⟩
  · rw [he] at h
    simp at h

theorem addColumns_ok (E : Env) (es : List ((_ : String) × String)) :
    ∀ (t t1 : ltsvTable) (ns vs names values : List String),
      addColumns E es t ns vs = (t1, .ok (names, values)) →
      names = ns ++ es.map (·.1) ∧ values = vs ++ es.map (·.2) ∧
      t1.columns = t.columns ∪ (es.map (·.1)).toFinset ∧
      t1.db.schema = t.db.schema ++ freshKeys t.columns (es.map (·.1)) ∧
      t1.db.rows = t.db.rows ∧
      t1.db.log = t.db.log ++
        (freshKeys t.columns (es.map (·.1))).map (fun k => (Stmt.addColumn k, true)) := by
  induction es with
  | nil =>
    intro t t1 ns vs names values h
    simp only [addColumns, Prod.mk.injEq, Except.ok.injEq] at h
    obtain ⟨rfl, rfl, rfl⟩ := h
    simp [freshKeys]
  | cons e es ih =>
    intro t t1 ns vs names values h
    obtain ⟨k, v⟩ := e
    unfold addColumns at h
    by_cases hk : k ∈ t.columns
    · rw [if_pos hk] at h
      obtain ⟨h1, h2, h3, h4, h5, h6⟩ := ih _ _ _ _ _ _ h
      refine ⟨by simp [h1], by simp [h2], ?_, ?_, h5, ?_⟩
      · rw [h3]; ext x; simp only [Finset.mem_union, List.mem_toFinset, List.map_cons, List.mem_cons]
        constructor
        · rintro (h | h)
          · exact Or.inl h
          · exact Or.inr (Or.inr h)
        · rintro (h | h | h)
          · exact Or.inl h
          · exact Or.inl (h ▸ hk)
          · exact Or.inr h
      · simp [h4, freshKeys, hk]
      · simp [h6, freshKeys, hk]
    · rw [if_neg hk] at h
      rcases hx : Exec E t.db (.addColumn k) with ⟨db1, _ | e⟩
      · rw [hx] at h
        simp only at h
        obtain ⟨h1, h2, h3, h4, h5, h6⟩ := ih _ _ _ _ _ _ h
        obtain ⟨g1, g2, g3⟩ := Exec_addColumn_none hx
        simp only at h3 h4 h5 h6
        refine ⟨by simp [h1], by simp [h2], ?_, ?_, ?_, ?_⟩
        · rw [h3]; ext x
          simp only [Finset.mem_union, Finset.mem_insert, List.mem_toFinset, List.map_cons,
            List.mem_cons]
          tauto
        · simp [h4, g1, freshKeys, hk]
        · rw [h5, g2]
        · simp [h6, g3, freshKeys, hk]
      · rw [hx] at h
        simp at h

/-! ## What every run of the column loop, of `Insert` and of the ingestion loop keeps -/

theorem issuedOnce_nil (a : Finset String) : IssuedOnce a [] a :=
  ⟨fun _ _ _ h => by simp at h, List.Pairwise.nil, fun k => by simp⟩

theorem issuedOnce_append {a b c : Finset String} {s1 s2 : List (Stmt × Bool)}
    (h1 : IssuedOnce a s1 b) (h2 : IssuedOnce b s2 c) : IssuedOnce a (s1 ++ s2) c := by
  obtain ⟨a1, p1, c1⟩ := h1
  obtain ⟨a2, p2, c2⟩ := h2
  refine ⟨?_, ?_, ?_⟩
  · intro k hk b hmem
    rcases List.mem_append.mp hmem with h | h
    · exact a1 k hk b h
    · exact a2 k ((c1 k).mpr (Or.inl hk)) b h
  · rw [List.pairwise_append]
    refine ⟨p1, p2, ?_⟩
    intro x hx y hy k hxk b hyb
    subst hxk; subst hyb
    exact a2 k ((c1 k).mpr (Or.inr hx)) b hy
  · intro k
    rw [c2 k, c1 k, List.mem_append]
    tauto

theorem issuedOnce_insertRow (a : Finset String) (ns vs : List String) (b : Bool) :
    IssuedOnce a [(Stmt.insertRow ns vs, b)] a := by
  refine ⟨?_, ?_, ?_⟩
  · intro k _ b1 h
    simp at h
  · simp
  · intro k
    simp

theorem issuedOnce_added {a : Finset String} {k : String} (hk : k ∉ a) :
    IssuedOnce a [(Stmt.addColumn k, true)] (insert k a) := by
  refine ⟨?_, ?_, ?_⟩
  · intro k1 hk1 b h
    simp only [List.mem_singleton, Prod.mk.injEq, Stmt.addColumn.injEq] at h
    exact hk (h.1 ▸ hk1)
  · simp
  · intro k1
    simp only [Finset.mem_insert, List.mem_singleton, Prod.mk.injEq, Stmt.addColumn.injEq,
      and_true]
    tauto

theorem issuedOnce_refused {a : Finset String} {k : String} (hk : k ∉ a) :
    IssuedOnce a [(Stmt.addColumn k, false)] a := by
  refine ⟨?_, ?_, ?_⟩
  · intro k1 hk1 b h
    simp only [List.mem_singleton, Prod.mk.injEq, Stmt.addColumn.injEq] at h
    exact hk (h.1 ▸ hk1)
  · simp
  · intro k1
    simp

theorem issuedOnce_subset {a b : Finset String} {s : List (Stmt × Bool)}
    (h : IssuedOnce a s b) : a ⊆ b :=
  fun k hk => (h.2.2 k).mpr (Or.inl hk)

theorem addColumns_always (E : Env) (es : List ((_ : String) × String)) :
    ∀ (t : ltsvTable) (ns vs : List String),
      t.db.schema <+: (addColumns E es t ns vs).1.db.schema ∧
      (addColumns E es t ns vs).1.db.rows = t.db.rows ∧
      ∃ seg, (addColumns E es t ns vs).1.db.log = t.db.log ++ seg ∧
        IssuedOnce t.columns seg (addColumns E es t ns vs).1.columns := by
  induction es with
  | nil =>
    intro t ns vs
    exact ⟨List.prefix_refl _, rfl, [], by simp [addColumns], issuedOnce_nil _⟩
  | cons e es ih =>
    intro t ns vs
    obtain ⟨k, v⟩ := e
    unfold addColumns
    by_cases hk : k ∈ t.columns
    · rw [if_pos hk]
      exact ih _ _ _
    · rw [if_neg hk]
      rcases hx : Exec E t.db (.addColumn k) with ⟨db1, _ | e⟩
      · obtain ⟨g1, g2, g3⟩ := Exec_addColumn_none hx
        obtain ⟨i1, i2, seg, i3, i4⟩ :=
          ih { db := db1, columns := insert k t.columns } (ns ++ [k]) (vs ++ [v])
        simp only at i1 i2 i3 i4 ⊢
        refine ⟨?_, by rw [i2, g2], (Stmt.addColumn k, true) :: seg, ?_, ?_⟩
        · exact (List.prefix_append _ _).trans (g1 ▸ i1)
        · rw [i3, g3]; simp
        · exact issuedOnce_append (issuedOnce_added hk) i4
      · obtain ⟨g1, g2, g3⟩ := Exec_some hx
        simp only
        exact ⟨g1 ▸ List.prefix_refl _, g2, [(Stmt.addColumn k, false)], g3,
          issuedOnce_refused hk⟩

theorem Exec_always (E : Env) (db : DB) (ns vs : List String) :
    (Exec E db (.insertRow ns vs)).1.schema = db.schema ∧
    ∃ b, (Exec E db (.insertRow ns vs)).1.log = db.log ++ [(.insertRow ns vs, b)] := by
  rcases hx : Exec E db (.insertRow ns vs) with ⟨db1, _ | e⟩
  · obtain ⟨g1, _, g3⟩ := Exec_insertRow_none hx
    exact ⟨g1, true, g3⟩
  · obtain ⟨g1, _, g3⟩ := Exec_some hx
    exact ⟨g1, false, g3⟩

theorem Insert_always (E : Env) (t : ltsvTable) (line : String) :
    t.db.schema <+: (Insert E t line).1.db.schema ∧
    ∃ seg, (Insert E t line).1.db.log = t.db.log ++ seg ∧
      IssuedOnce t.columns seg (Insert E t line).1.columns := by
  unfold Insert
  cases hu : E.unmarshal line with
  | error e => exact ⟨List.prefix_refl _, [], by simp, issuedOnce_nil _⟩
  | ok m =>
    simp only
    obtain ⟨a1, _, seg, a3, a4⟩ := addColumns_always E m.entries t [] []
    rcases ha : addColumns E m.entries t [] [] with ⟨t1, e | ⟨names, values⟩⟩
    · rw [ha] at a1 a3 a4
      exact ⟨a1, seg, a3, a4⟩
    · rw [ha] at a1 a3 a4
      simp only at a1 a3 a4 ⊢
      obtain ⟨x1, b, x2⟩ := Exec_always E t1.db names values
      refine ⟨x1 ▸ a1, seg ++ [(.insertRow names values, b)], ?_, ?_⟩
      · rw [x2, a3, List.append_assoc]
      · exact issuedOnce_append a4 (issuedOnce_insertRow _ _ _ _)

theorem ingest_always (E : Env) (lines : List String) :
    ∀ t : ltsvTable,
      t.db.schema <+: (ingest E t lines).db.schema ∧
      ∃ seg, (ingest E t lines).db.log = t.db.log ++ seg ∧
        IssuedOnce t.columns seg (ingest E t lines).columns := by
  induction lines with
  | nil => intro t; exact ⟨List.prefix_refl _, [], by simp [ingest], issuedOnce_nil _⟩
  | cons l ls ih =>
    intro t
    obtain ⟨a1, s1, a2, a3⟩ := Insert_always E t (trimSpace l)
    obtain ⟨b1, s2, b2, b3⟩ := ih (Insert E t (trimSpace l)).1
    refine ⟨a1.trans b1, s1 ++ s2, ?_, issuedOnce_append a3 b3⟩
    simp only [ingest]
    rw [b2, a2, List.append_assoc]

/-! ## A successful and a failed `Insert` -/

theorem freshKeys_nodup_eq_filter (ks : List String) :
    ∀ known : Finset String, ks.Nodup →
      freshKeys known ks = ks.filter (fun k => decide (k ∉ known)) := by
  induction ks with
  | nil => intro _ _; rfl
  | cons k ks ih =>
    intro known hnd
    obtain ⟨hk, hnd1⟩ := List.nodup_cons.mp hnd
    unfold freshKeys
    by_cases h : k ∈ known
    · rw [if_pos h, ih known hnd1]
      simp [List.filter_cons, h]
    · rw [if_neg h, ih _ hnd1]
      simp only [List.filter_cons, h, not_false_eq_true, decide_True, if_true]
      congr 1
      apply List.filter_congr
      intro x hx
      have hxk : x ≠ k := fun e => hk (e ▸ hx)
      simp [Finset.mem_insert, hxk]

theorem zipWith_entries (es : List ((_ : String) × String)) :
    List.zipWith (fun k v => (⟨k, v⟩ : (_ : String) × String)) (es.map (·.1)) (es.map (·.2)) = es := by
  induction es with
  | nil => rfl
  | cons e es ih => simp [ih]

theorem cell_recordRow (m : GoMap) (c : String) : cell (recordRow m) c = m.lookup c := by
  unfold cell recordRow mkRow
  have h : m.keys = m.entries.map (·.1) := rfl
  rw [h, zipWith_entries]
  simp [AList.lookup, List.toAList, List.dlookup_dedupKeys]

theorem Insert_ok {E : Env} {t : ltsvTable} {line : String}
    (h : (Insert E t line).2 = none) :
    ∃ m, E.unmarshal line = .ok m ∧
      (Insert E t line).1.columns = t.columns ∪ m.keys.toFinset ∧
      (Insert E t line).1.db.schema = t.db.schema ++ freshKeys t.columns m.keys ∧
      (Insert E t line).1.db.rows = t.db.rows ++ [recordRow m] ∧
      (Insert E t line).1.db.log = t.db.log ++
        ((freshKeys t.columns m.keys).map (fun k => (Stmt.addColumn k, true)) ++
          [(Stmt.insertRow m.keys (m.entries.map (·.2)), true)]) := by
  unfold Insert at h ⊢
  cases hu : E.unmarshal line with
  | error e => rw [hu] at h; simp at h
  | ok m =>
    rw [hu] at h
    simp only at h ⊢
    refine ⟨m, rfl, ?_⟩
    rcases ha : addColumns E m.entries t [] [] with ⟨t1, e | ⟨names, values⟩⟩
    · rw [ha] at h; simp at h
    · rw [ha] at h
      simp only at h ⊢
      obtain ⟨h1, h2, h3, h4, h5, h6⟩ := addColumns_ok E m.entries _ _ _ _ _ _ ha
      simp only [List.nil_append] at h1 h2
      rcases hx : Exec E t1.db (.insertRow names values) with ⟨db2, err⟩
      rw [hx] at h
      simp only at h
      subst h
      obtain ⟨x1, x2, x3⟩ := Exec_insertRow_none hx
      simp only
      have hkeys : m.keys = m.entries.map (·.1) := rfl
      refine ⟨by rw [h3, hkeys], by rw [x1, h4, hkeys], ?_, ?_⟩
      · rw [x2, h5, h1, h2, recordRow, hkeys]
      · rw [x3, h6, h1, h2, hkeys, List.append_assoc]

theorem Insert_failed_rows {E : Env} {t : ltsvTable} {line : String}
    (h : (Insert E t line).2 ≠ none) : (Insert E t line).1.db.rows = t.db.rows := by
  unfold Insert at h ⊢
  cases hu : E.unmarshal line with
  | error e => rfl
  | ok m =>
    rw [hu] at h
    simp only at h ⊢
    have hr := (addColumns_always E m.entries t [] []).2.1
    rcases ha : addColumns E m.entries t [] [] with ⟨t1, e | ⟨names, values⟩⟩
    · rw [ha] at hr; exact hr
    · rw [ha] at h hr
      simp only at h hr ⊢
      rcases hx : Exec E t1.db (.insertRow names values) with ⟨db2, _ | e⟩
      · rw [hx] at h; simp at h
      · rw [(Exec_some hx).2.1, hr]

theorem ingest_append (E : Env) (l1 l2 : List String) :
    ∀ t, ingest E t (l1 ++ l2) = ingest E (ingest E t l1) l2 := by
  induction l1 with
  | nil => intro t; rfl
  | cons l ls ih => intro t; exact ih _

theorem ingest_rows (E : Env) (lines : List String) :
    ∀ t, (ingest E t lines).db.rows = t.db.rows ++ acceptedRows E t lines := by
  induction lines with
  | nil => intro t; simp [ingest, acceptedRows]
  | cons l ls ih =>
    intro t
    simp only [ingest, acceptedRows]
    rw [ih]
    by_cases h : (Insert E t (trimSpace l)).2 = none
    · obtain ⟨m, hm, _, _, hrows, _⟩ := Insert_ok h
      rw [h, hm, hrows]
      simp
    · rw [Insert_failed_rows h]
      cases hi : (Insert E t (trimSpace l)).2 with
      | none => exact absurd hi h
      | some e => simp

/-! ## Maps built by assignment and the rows `Query` returns -/

theorem lookup_foldl_assign_of_ne (kvs : List (String × String)) (k : String)
    (h : ∀ p ∈ kvs, p.1 ≠ k) :
    ∀ m : GoMap, (kvs.foldl (fun m kv => mapAssign m kv.1 kv.2) m).lookup k = m.lookup k := by
  induction kvs with
  | nil => intro m; rfl
  | cons p ps ih =>
    intro m
    simp only [List.foldl_cons]
    rw [ih (fun q hq => h q (List.mem_cons_of_mem _ hq))]
    have hp : k ≠ p.1 := fun e => h p (List.mem_cons_self _ _) e.symm
    exact AList.lookup_insert_ne hp

theorem lookup_mapOfPairs_last (pre post : List (String × String)) (k v : String)
    (h : ∀ p ∈ post, p.1 ≠ k) :
    (mapOfPairs (pre ++ (k, v) :: post)).lookup k = some v := by
  unfold mapOfPairs
  rw [List.foldl_append, List.foldl_cons, lookup_foldl_assign_of_ne post k h]
  exact AList.lookup_insert _

theorem mem_keys_foldl_assign (kvs : List (String × String)) (c : String) :
    ∀ m : GoMap, c ∈ (kvs.foldl (fun m kv => mapAssign m kv.1 kv.2) m).keys ↔
      c ∈ m.keys ∨ c ∈ kvs.map Prod.fst := by
  induction kvs with
  | nil => intro m; simp
  | cons p ps ih =>
    intro m
    simp only [List.foldl_cons, List.map_cons, List.mem_cons]
    rw [ih]
    have : c ∈ (mapAssign m p.1 p.2).keys ↔ c = p.1 ∨ c ∈ m.keys := by
      unfold mapAssign
      rw [← AList.mem_keys, AList.mem_insert, AList.mem_keys]
    rw [this]
    tauto

theorem mem_keys_mapOfPairs (kvs : List (String × String)) (c : String) :
    c ∈ (mapOfPairs kvs).keys ↔ c ∈ kvs.map Prod.fst := by
  unfold mapOfPairs
  rw [mem_keys_foldl_assign]
  simp

theorem mem_keys_scanRow (columns : List String) (cells : Cells) (c : String) :
    c ∈ (scanRow columns cells).keys ↔ c ∈ columns := by
  unfold scanRow
  simp only
  rw [mem_keys_mapOfPairs, List.map_fst_zip]
  simp

theorem lookup_scanRow_last (columns : List String) (cells : Cells) (i : Nat) (c : String)
    (hi : columns[i]? = some c) (hlast : ∀ j, i < j → columns[j]? ≠ some c) :
    (scanRow columns cells).lookup c = some (cellText (cells.getD i none)) := by
  have hlt : i < columns.length := by
    by_contra hge
    rw [List.getElem?_eq_none (by omega)] at hi
    simp at hi
  set values := (List.range columns.length).map (fun i => cellText (cells.getD i none))
    with hv
  have hlen : values.length = columns.length := by simp [hv]
  have hz : i < (columns.zip values).length := by simp [hlen, hlt]
  have hsplit := (List.take_append_drop i (columns.zip values)).symm
  rw [List.drop_eq_getElem_cons hz] at hsplit
  have hget : (columns.zip values)[i] = (c, cellText (cells.getD i none)) := by
    have hsome : (columns.zip values)[i]? = some (c, cellText (cells.getD i none)) := by
      rw [List.getElem?_zip_eq_some]
      exact ⟨hi, by simp [hv, hlt]⟩
    rw [List.getElem?_eq_getElem hz] at hsome
    exact Option.some.inj hsome
  rw [hget] at hsplit
  have hs : scanRow columns cells = mapOfPairs (columns.zip values) := rfl
  rw [hs, hsplit]
  apply lookup_mapOfPairs_last
  intro p hp hpc
  obtain ⟨j, hj⟩ := List.mem_iff_getElem?.mp hp
  rw [List.getElem?_drop] at hj
  obtain ⟨hj1, _⟩ := List.getElem?_zip_eq_some.mp hj
  apply hlast (i + 1 + j) (by omega)
  rw [hj1, hpc]

/-! ## Further facts about `Insert` and the statement history -/

theorem step_insertRow_names {E : Env} {db db1 : DB} {ns vs : List String}
    (h : step E db (.insertRow ns vs) = .ok db1) : ∀ n ∈ ns, n ∈ db.schema := by
  simp only [step] at h
  split_ifs at h with h1 h2 h3 h4
  intro n hn
  by_contra hc
  apply h3
  rw [List.any_eq_true]
  exact ⟨n, hn, by simpa using hc⟩

theorem Insert_ok_keys {E : Env} {t : ltsvTable} {line : String} {m : GoMap}
    (h : (Insert E t line).2 = none) (hm : E.unmarshal line = .ok m) :
    ∀ k ∈ m.keys, k ∈ (Insert E t line).1.db.schema := by
  unfold Insert at h ⊢
  rw [hm] at h ⊢
  simp only at h ⊢
  rcases ha : addColumns E m.entries t [] [] with ⟨t1, e | ⟨names, values⟩⟩
  · rw [ha] at h; simp at h
  · rw [ha] at h
    simp only at h ⊢
    obtain ⟨h1, -⟩ := addColumns_ok E m.entries _ _ _ _ _ _ ha
    simp only [List.nil_append] at h1
    rcases Exec_cases E t1.db (.insertRow names values) with ⟨d, hs, he⟩ | ⟨e, _, he⟩
    · rw [he]
      simp only
      have hn := step_insertRow_names hs
      have hd := step_insertRow_ok hs
      subst hd
      intro k hk
      exact hn k (h1 ▸ hk)
    · rw [he] at h; simp at h

theorem count_le_one_of_pairwise (seg : List (Stmt × Bool)) (k : String)
    (h : seg.Pairwise
      (fun x y => ∀ k, x = (Stmt.addColumn k, true) → ∀ b, y ≠ (Stmt.addColumn k, b))) :
    seg.count (Stmt.addColumn k, true) ≤ 1 := by
  induction seg with
  | nil => simp
  | cons x xs ih =>
    obtain ⟨hx, hxs⟩ := List.pairwise_cons.mp h
    by_cases e : x = (Stmt.addColumn k, true)
    · have hnot : (Stmt.addColumn k, true) ∉ xs := fun hm => hx _ hm k e true rfl
      rw [List.count_cons, List.count_eq_zero_of_not_mem hnot]
      simp [e]
    · rw [List.count_cons]
      have : (x == (Stmt.addColumn k, true)) = false := by simpa using e
      simp [this, ih hxs]

theorem not_mem_after_of_pairwise {seg pre post : List (Stmt × Bool)} {k : String}
    (h : seg.Pairwise
      (fun x y => ∀ k, x = (Stmt.addColumn k, true) → ∀ b, y ≠ (Stmt.addColumn k, b)))
    (hs : seg = pre ++ (Stmt.addColumn k, true) :: post) :
    ∀ b, (Stmt.addColumn k, b) ∉ post := by
  subst hs
  have h1 := (List.pairwise_append.mp h).2.1
  obtain ⟨hx, _⟩ := List.pairwise_cons.mp h1
  intro b hb
  exact hx _ hb k rfl b rfl

/-! ## Further lemmas for the claims -/

theorem cellText_eq_getD (a : Option String) : cellText a = a.getD "" := by
  cases a <;> rfl

theorem cellText_getD_congr {cells cells1 : Cells}
    (h : List.Forall₂ (fun a b : Option String => a.getD "" = b.getD "") cells cells1) :
    ∀ i, cellText (cells.getD i none) = cellText (cells1.getD i none) := by
  induction h with
  | nil => intro i; rfl
  | cons hab _ ih =>
    intro i
    cases i with
    | zero =>
      simp only [List.getD_cons_zero, cellText_eq_getD]
      exact hab
    | succ j => simpa using ih j

theorem scanRow_congr (columns : List String) {cells cells1 : Cells}
    (h : List.Forall₂ (fun a b : Option String => a.getD "" = b.getD "") cells cells1) :
    scanRow columns cells = scanRow columns cells1 := by
  unfold scanRow
  simp only [cellText_getD_congr h]

theorem map_scanRow_congr (columns : List String) {rows rows1 : List Cells}
    (h : List.Forall₂ (List.Forall₂ (fun a b : Option String => a.getD "" = b.getD ""))
      rows rows1) :
    rows1.map (scanRow columns) = rows.map (scanRow columns) := by
  induction h with
  | nil => rfl
  | cons hab _ ih => simp only [List.map_cons, scanRow_congr columns hab, ih]

theorem mem_columnTrace (rows : List GoMap) :
    ∀ (oc used : List String), used ∈ columnTrace oc rows →
      used = oc ∨ ∃ r ∈ rows, used = sortStrings r.keys := by
  induction rows with
  | nil => intro oc used h; simp [columnTrace] at h
  | cons r rs ih =>
    intro oc used h
    have hc : chooseColumns oc r = oc ∨ chooseColumns oc r = sortStrings r.keys := by
      unfold chooseColumns
      split_ifs
      · exact Or.inr rfl
      · exact Or.inl rfl
    simp only [columnTrace, List.mem_cons] at h
    rcases h with h | h
    · rcases hc with e | e
      · exact Or.inl (h.trans e)
      · exact Or.inr ⟨r, List.mem_cons_self _ _, h.trans e⟩
    · rcases ih _ _ h with e | ⟨r1, hr1, e⟩
      · rcases hc with e1 | e1
        · exact Or.inl (e.trans e1)
        · exact Or.inr ⟨r, List.mem_cons_self _ _, e.trans e1⟩
      · exact Or.inr ⟨r1, List.mem_cons_of_mem _ hr1, e⟩

theorem columnTrace_keyed (r : GoMap) (rs : List GoMap) (hk : r.keys ≠ []) :
    columnTrace [] (r :: rs) = List.replicate (r :: rs).length (sortStrings r.keys) := by
  have hne : sortStrings r.keys ≠ [] := fun h0 => hk (sortStrings_eq_nil.mp h0)
  have hc : chooseColumns [] r = sortStrings r.keys := by simp [chooseColumns]
  simp only [columnTrace, hc, columnTrace_of_ne_nil hne, List.length_cons, List.replicate_succ]

theorem zipWith_lineText_replicate (cols : List String) (l : List GoMap) :
    List.zipWith lineText (List.replicate l.length cols) l = l.map (lineText cols) := by
  induction l with
  | nil => rfl
  | cons a l ih => simp [List.replicate_succ, ih]

theorem formatRows_buf_keyed (r : GoMap) (rs : List GoMap) (out : String)
    (hk : r.keys ≠ []) :
    formatRows bufWriter (r :: rs) out =
      .ok (out ++ concat ((r :: rs).map (lineText (sortStrings r.keys)))) := by
  rw [formatRows, writeRows_buf, columnTrace_keyed r rs hk, zipWith_lineText_replicate]

theorem perm_pair {α : Type} {x y : α} {l : List α} (h : l.Perm [x, y]) :
    l = [x, y] ∨ l = [y, x] := by
  have hlen := h.length_eq
  match l, hlen with
  | [p, q], _ =>
    have hp : p ∈ [x, y] := h.subset (List.mem_cons_self _ _)
    simp only [List.mem_cons, List.mem_singleton, List.not_mem_nil, or_false] at hp
    rcases hp with rfl | rfl
    · have hq := (List.perm_cons p).mp h
      rw [List.perm_singleton.mp hq]
      exact Or.inl rfl
    · have hq := (List.perm_cons p).mp (h.trans (List.Perm.swap p x []))
      rw [List.perm_singleton.mp hq]
      exact Or.inr rfl

theorem example_run (l1 l2 : List ((_ : String) × String))
    (hl1 : l1 = [⟨"a", "1"⟩, ⟨"b", "2"⟩] ∨ l1 = [⟨"b", "2"⟩, ⟨"a", "1"⟩])
    (hl2 : l2 = [⟨"b", "3"⟩, ⟨"c", "4"⟩] ∨ l2 = [⟨"c", "4"⟩, ⟨"b", "3"⟩])
    (n1 : l1.NodupKeys) (n2 : l2.NodupKeys) (E : Env) :
    main (exampleEnv E ⟨l1, n1⟩ ⟨l2, n2⟩)
      bufWriter ["a:1\tb:2", "b:3\tc:4"] "SELECT a,b,c FROM ltsv" "" =
      .ok "a:1\tb:2\tc:\t\na:\tb:3\tc:4\t\n" := by
  rcases hl1 with rfl | rfl <;> rcases hl2 with rfl | rfl <;> rfl

theorem eq_exampleEnv (E : Env) (m1 m2 : GoMap)
    (h1 : E.unmarshal "a:1\tb:2" = .ok m1) (h2 : E.unmarshal "b:3\tc:4" = .ok m2)
    (hf : ∀ db s, E.faults db s = false)
    (he : ∀ db, E.eval db "SELECT a,b,c FROM ltsv" = selectEval db "SELECT a,b,c FROM ltsv") :
    E = exampleEnv E m1 m2 := by
  cases E with
  | mk u f ev =>
    simp only at h1 h2 hf he
    unfold exampleEnv
    congr
    · funext s
      by_cases e1 : s = "a:1\tb:2"
      · rw [if_pos e1, e1, h1]
      · rw [if_neg e1]
        by_cases e2 : s = "b:3\tc:4"
        · rw [if_pos e2, e2, h2]
        · rw [if_neg e2]
    · funext db s
      exact hf db s
    · funext db q
      by_cases e : q = "SELECT a,b,c FROM ltsv"
      · rw [if_pos e, e, he]
      · rw [if_neg e]

/-! ## The claims -/

/-- C1 (end-to-end example).  Let the two lines `a:1<TAB>b:2` and
`b:3<TAB>c:4` parse to the records with exactly these fields, whatever order
a `range` loop visits them in, let the engine refuse no statement on its own
account and let it answer `SELECT a,b,c FROM ltsv` as a projection.  Then
`main`, started on a fresh table with these two lines and this query, writes
exactly `a:1<TAB>b:2<TAB>c:<TAB>\n` followed by `a:<TAB>b:3<TAB>c:4<TAB>\n`:
the null cells come out as empty text. -/
theorem example_scenario (E : Env) (m1 m2 : GoMap)
    (h1 : E.unmarshal "a:1\tb:2" = .ok m1)
    (hm1 : m1.entries.Perm [⟨"a", "1"⟩, ⟨"b", "2"⟩])
    (h2 : E.unmarshal "b:3\tc:4" = .ok m2)
    (hm2 : m2.entries.Perm [⟨"b", "3"⟩, ⟨"c", "4"⟩])
    (hf : ∀ db s, E.faults db s = false)
    (he : ∀ db, E.eval db "SELECT a,b,c FROM ltsv" = selectEval db "SELECT a,b,c FROM ltsv") :
    main E bufWriter ["a:1\tb:2", "b:3\tc:4"] "SELECT a,b,c FROM ltsv" "" =
      .ok "a:1\tb:2\tc:\t\na:\tb:3\tc:4\t\n" := by
  rw [eq_exampleEnv E m1 m2 h1 h2 hf he]
  exact example_run m1.entries m2.entries (perm_pair hm1) (perm_pair hm2) m1.nodupKeys
    m2.nodupKeys E

/-- The worked example of C1 with the reference parser and the reference
projection evaluator. -/
theorem example_scenario_witness :
    main refEnv bufWriter ["a:1\tb:2", "b:3\tc:4"] "SELECT a,b,c FROM ltsv" "" =
      .ok "a:1\tb:2\tc:\t\na:\tb:3\tc:4\t\n" :=
  example_scenario refEnv (mapOfPairs [("a", "1"), ("b", "2")])
    (mapOfPairs [("b", "3"), ("c", "4")]) (by rfl) (by decide) (by rfl) (by decide)
    (fun _ _ => rfl) (fun _ => rfl)

/-- Counterexample to C2 as stated.  For the two result rows `{}` and
`{a:1}` the sorted key set of the first row is empty, yet the second line is
written with the column sequence `[a]`: the output is `\n` then `a:1<TAB>\n`,
so not every line uses the first row's key set. -/
theorem c2_counterexample :
    formatRows bufWriter [(∅ : GoMap), mapOfPairs [("a", "1")]] "" = .ok "\na:1\t\n" ∧
    sortStrings (∅ : GoMap).keys = [] ∧
    columnTrace [] [(∅ : GoMap), mapOfPairs [("a", "1")]] = [[], ["a"]] ∧
    ¬ (∀ cols ∈ columnTrace [] [(∅ : GoMap), mapOfPairs [("a", "1")]],
        cols = sortStrings (∅ : GoMap).keys) := by
  refine ⟨by rfl, by rfl, by rfl, ?_⟩
  intro h
  have h1 := h ["a"] (by
    have : columnTrace [] [(∅ : GoMap), mapOfPairs [("a", "1")]] = [[], ["a"]] := by rfl
    rw [this]; simp)
  have h2 : sortStrings (∅ : GoMap).keys = [] := by rfl
  rw [h2] at h1
  exact List.cons_ne_nil _ _ h1

/-- C2 as amended (output column stability).  For every sequence of result
rows, line `i` is written with the sorted key set of the first row, among the
rows up to and including row `i`, that has at least one key, and with no
column when none of them has one.  In particular, when the first row has at
least one key, every one of the `N` lines uses the first row's keys in
ascending order, whatever the key sets of the later rows are, and the output
is the concatenation of the lines so formed.  The sorted key set of a row is
strictly ascending and has exactly the row's keys. -/
theorem output_column_stability (rows : List GoMap) :
    (∀ i, i < rows.length → (columnTrace [] rows)[i]? = some (columnsAt rows i)) ∧
    (∀ r rs, rows = r :: rs → r.keys ≠ [] →
      columnTrace [] rows = List.replicate rows.length (sortStrings r.keys) ∧
      formatRows bufWriter rows "" = .ok (concat (rows.map (lineText (sortStrings r.keys))))) ∧
    (∀ r : GoMap, (sortStrings r.keys).Sorted (· < ·) ∧
      ∀ c, c ∈ sortStrings r.keys ↔ c ∈ r.keys) := by
  refine ⟨fun i hi => columnTrace_nil_get rows i hi, ?_, ?_⟩
  · rintro r rs rfl hk
    refine ⟨columnTrace_keyed r rs hk, ?_⟩
    rw [formatRows_buf_keyed r rs "" hk, String.empty_append]
  · intro r
    exact ⟨sortStrings_sorted_lt r.keys_nodup, fun c => mem_sortStrings⟩

/-- The amended C2 at two rows with different key sets, `{a:1, b:2}` and
`{c:3}`: both lines use the columns `a`, `b`. -/
theorem output_column_stability_witness :
    columnTrace [] [mapOfPairs [("a", "1"), ("b", "2")], mapOfPairs [("c", "3")]] =
        List.replicate 2 ["a", "b"] ∧
      formatRows bufWriter [mapOfPairs [("a", "1"), ("b", "2")], mapOfPairs [("c", "3")]] "" =
        .ok "a:1\tb:2\t\na:\tb:\t\n" :=
  (output_column_stability
    [mapOfPairs [("a", "1"), ("b", "2")], mapOfPairs [("c", "3")]]).2.1 _ _ rfl (by decide)

/-- C3 (output line format).  For every sequence of `N` result rows the
formatter, writing to an in-memory sink that holds `out`, succeeds and leaves
`out` followed by exactly `N` lines, one per row and in the order of the
rows; nothing is written for the empty sequence.  The line of row `r` is
`lineText cols r`, that is `c ++ ":" ++ r[c] ++ "\t"` for the columns `c` of
`cols` in order and then one `"\n"`, where `cols` is the value of
`outputColumns` during that iteration, which is the sorted key set of the
first row whenever that row has a key; a line with at least one column ends
in a tab followed by the newline. -/
theorem output_line_format (rows : List GoMap) (out : String) :
    formatRows bufWriter rows out =
      .ok (out ++ concat (List.zipWith lineText (columnTrace [] rows) rows)) ∧
    (List.zipWith lineText (columnTrace [] rows) rows).length = rows.length ∧
    (columnTrace [] rows).length = rows.length ∧
    formatRows bufWriter [] out = .ok out ∧
    (∀ r rs, rows = r :: rs → r.keys ≠ [] →
      formatRows bufWriter rows out =
        .ok (out ++ concat (rows.map (lineText (sortStrings r.keys))))) ∧
    (∀ (cols : List String) (r : GoMap), cols ≠ [] →
      ∃ pre, lineText cols r = pre ++ "\t" ++ "\n") := by
  refine ⟨writeRows_buf [] rows out, by simp [columnTrace_length], columnTrace_length [] rows,
    rfl, ?_, ?_⟩
  · rintro r rs rfl hk
    exact formatRows_buf_keyed r rs out hk
  intro cols r hc
  induction cols with
  | nil => exact absurd rfl hc
  | cons c cs ih =>
    by_cases hcs : cs = []
    · subst hcs
      exact ⟨c ++ ":" ++ mapIndex r c, by simp [lineText, concat]⟩
    · obtain ⟨pre, hpre⟩ := ih hcs
      refine ⟨c ++ ":" ++ mapIndex r c ++ "\t" ++ pre, ?_⟩
      simp only [lineText, concat, List.map_cons, List.foldr_cons] at hpre ⊢
      simp only [String.append_assoc] at hpre ⊢
      rw [hpre]

/-- Counterexample to C4 as stated.  With the result rows `{a:1, b:2}` and
`{a:3}` the column `b` belongs to the column sequence fixed from the first
row and is missing from the second row, yet the formatter does not fail: it
writes `a:1<TAB>b:2<TAB>\n` and `a:3<TAB>b:<TAB>\n`. -/
theorem c4_counterexample :
    "b" ∈ sortStrings (mapOfPairs [("a", "1"), ("b", "2")]).keys ∧
    "b" ∉ (mapOfPairs [("a", "3")]).keys ∧
    formatRows bufWriter [mapOfPairs [("a", "1"), ("b", "2")], mapOfPairs [("a", "3")]] "" =
      .ok "a:1\tb:2\t\na:3\tb:\t\n" := by
  refine ⟨by decide, by decide, by rfl⟩

/-- C4 as amended (missing column).  A column that a row lacks is not an error
for the formatter: over a sink whose writes never fault the formatter
succeeds on every sequence of result rows, and the field written for a
column `c` that is not a key of row `r` is `c:` with empty text, then the
tab.  The only failure of the formatter is a write fault of the sink. -/
theorem missing_column_blank {σ : Type} (w : Writer σ) (rows : List GoMap) (out : σ)
    (hw : ∀ s x, ∃ s1, w.write s x = .ok s1) :
    (∃ out1, formatRows w rows out = .ok out1) ∧
    (∀ (r : GoMap) (c : String), c ∉ r.keys → fieldText r c = c ++ ":" ++ "" ++ "\t") := by
  refine ⟨writeRows_total w hw [] rows out, ?_⟩
  intro r c hc
  have : r.lookup c = none := AList.lookup_eq_none.mpr hc
  simp [fieldText, mapIndex, this]

/-- The amended C4 at the rows `{a:1, b:2}` and `{a:3}` over the in-memory
sink. -/
theorem missing_column_blank_witness :
    (∃ out1, formatRows bufWriter [mapOfPairs [("a", "1"), ("b", "2")], mapOfPairs [("a", "3")]] "" = .ok out1) ∧
    (∀ (r : GoMap) (c : String), c ∉ r.keys → fieldText r c = c ++ ":" ++ "" ++ "\t") :=
  missing_column_blank bufWriter _ "" (fun s x => ⟨s ++ x, rfl⟩)

/-- C5 (sparse fidelity).  For every table state and every line whose
`Insert` returns no error, the line parsed to a record `m`, and the rows of
the relation afterwards are the rows before followed by exactly one new row.
Every key of `m` is a column of the relation; in the new row the cell of
every key of `m` holds the value `m` gives it, unchanged, and the cell of
every other column is null, which is not the empty string. -/
theorem sparse_fidelity (E : Env) (t : ltsvTable) (line : String)
    (h : (Insert E t line).2 = none) :
    ∃ m row, E.unmarshal line = .ok m ∧
      (Insert E t line).1.db.rows = t.db.rows ++ [row] ∧
      (∀ k ∈ m.keys, k ∈ (Insert E t line).1.db.schema) ∧
      (∀ k v, m.lookup k = some v → cell row k = some v) ∧
      (∀ c, c ∉ m.keys → cell row c = none ∧ cell row c ≠ some "") := by
  obtain ⟨m, hm, _, _, hrows, _⟩ := Insert_ok h
  refine ⟨m, recordRow m, hm, hrows, Insert_ok_keys h hm, ?_, ?_⟩
  · intro k v hk
    rw [cell_recordRow, hk]
  · intro c hc
    have hn : m.lookup c = none := AList.lookup_eq_none.mpr hc
    rw [cell_recordRow, hn]
    exact ⟨rfl, by simp⟩

/-- C5 at the line `a:1<TAB>b:2` inserted into a fresh table. -/
theorem sparse_fidelity_witness :
    ∃ m row, refEnv.unmarshal "a:1\tb:2" = .ok m ∧
      (Insert refEnv newLTSVTable "a:1\tb:2").1.db.rows = newLTSVTable.db.rows ++ [row] ∧
      (∀ k ∈ m.keys, k ∈ (Insert refEnv newLTSVTable "a:1\tb:2").1.db.schema) ∧
      (∀ k v, m.lookup k = some v → cell row k = some v) ∧
      (∀ c, c ∉ m.keys → cell row c = none ∧ cell row c ≠ some "") :=
  sparse_fidelity refEnv newLTSVTable "a:1\tb:2" (by rfl)

/-- C6 (schema monotonicity).  For every table state and every line, whether
`Insert` succeeds or fails, the known column set afterwards contains the one
before and the schema of the relation afterwards starts with the one before.
The same holds over any sequence of lines, and a column present after some
lines is still present, at the same place, after any further lines. -/
theorem schema_monotone (E : Env) (t : ltsvTable) (line : String) (lines more : List String) :
    t.columns ⊆ (Insert E t line).1.columns ∧
    t.db.schema <+: (Insert E t line).1.db.schema ∧
    t.columns ⊆ (ingest E t lines).columns ∧
    t.db.schema <+: (ingest E t lines).db.schema ∧
    (ingest E t lines).columns ⊆ (ingest E t (lines ++ more)).columns ∧
    (ingest E t lines).db.schema <+: (ingest E t (lines ++ more)).db.schema := by
  obtain ⟨a1, _, _, a2⟩ := Insert_always E t line
  obtain ⟨b1, _, _, b2⟩ := ingest_always E lines t
  obtain ⟨c1, _, _, c2⟩ := ingest_always E more (ingest E t lines)
  rw [ingest_append]
  exact ⟨issuedOnce_subset a2, a1, issuedOnce_subset b2, b1, issuedOnce_subset c2, c1⟩

/-- Counterexample to C7 as stated.  On a fresh table the two lines
`_dummy:1` and `_dummy:2` make `Insert` send `ADD COLUMN _dummy` twice: the
table was created with a column `_dummy` that `columns` does not list, the
engine refuses the addition, the name stays unknown and the next record
carrying the key sends the addition again. -/
theorem c7_counterexample :
    (ingest refEnv newLTSVTable ["_dummy:1", "_dummy:2"]).db.log =
      [(Stmt.addColumn "_dummy", false), (Stmt.addColumn "_dummy", false)] ∧
    ¬ (((ingest refEnv newLTSVTable ["_dummy:1", "_dummy:2"]).db.log.map Prod.fst).count
        (Stmt.addColumn "_dummy") ≤ 1) := by
  have h : (ingest refEnv newLTSVTable ["_dummy:1", "_dummy:2"]).db.log =
      [(Stmt.addColumn "_dummy", false), (Stmt.addColumn "_dummy", false)] := by rfl
  refine ⟨h, ?_⟩
  rw [h]
  decide

/-- C7 as amended (schema growth is exact and happens once per name).  For
every table state and every line whose `Insert` returns no error, the line
parsed to a record `m`; the columns added are exactly the keys of `m` that
were not known, each once, in the order of the loop; they are appended to the
schema; the statements sent are these additions followed by the one row
insertion; and the known set afterwards is the old one united with the keys
of `m`.  Over any sequence of lines: no addition is sent for a name that was
known at the start, once an addition for a name was carried out no addition
for that name is sent again, so an addition is carried out at most once per
name, and the names known at the end are those known at the start together
with those whose addition was carried out.  A name whose addition was refused
and never carried out is not known at the end. -/
theorem schema_growth_once (E : Env) (t : ltsvTable) :
    (∀ line, (Insert E t line).2 = none →
      ∃ m, E.unmarshal line = .ok m ∧
        (m.keys.filter (fun k => decide (k ∉ t.columns))).Nodup ∧
        (Insert E t line).1.db.schema =
          t.db.schema ++ m.keys.filter (fun k => decide (k ∉ t.columns)) ∧
        (Insert E t line).1.columns = t.columns ∪ m.keys.toFinset ∧
        (Insert E t line).1.db.log = t.db.log ++
          ((m.keys.filter (fun k => decide (k ∉ t.columns))).map
              (fun k => (Stmt.addColumn k, true)) ++
            [(Stmt.insertRow m.keys (m.entries.map (·.2)), true)])) ∧
    (∀ lines, ∃ seg, (ingest E t lines).db.log = t.db.log ++ seg ∧
      (∀ k ∈ t.columns, ∀ b, (Stmt.addColumn k, b) ∉ seg) ∧
      (∀ k pre post, seg = pre ++ (Stmt.addColumn k, true) :: post →
        ∀ b, (Stmt.addColumn k, b) ∉ post) ∧
      (∀ k, seg.count (Stmt.addColumn k, true) ≤ 1) ∧
      (∀ k, k ∈ (ingest E t lines).columns ↔
        k ∈ t.columns ∨ (Stmt.addColumn k, true) ∈ seg) ∧
      (∀ k, (Stmt.addColumn k, false) ∈ seg → (Stmt.addColumn k, true) ∉ seg →
        k ∉ (ingest E t lines).columns)) := by
  constructor
  · intro line h
    obtain ⟨m, hm, hcols, hschema, _, hlog⟩ := Insert_ok h
    have hf := freshKeys_nodup_eq_filter m.keys t.columns m.keys_nodup
    rw [hf] at hschema hlog
    exact ⟨m, hm, m.keys_nodup.filter _, hschema, hcols, hlog⟩
  · intro lines
    obtain ⟨_, seg, hseg, h1, h2, h3⟩ := ingest_always E lines t
    refine ⟨seg, hseg, h1, fun k pre post hs => not_mem_after_of_pairwise h2 hs,
      fun k => count_le_one_of_pairwise seg k h2, h3, ?_⟩
    intro k hrefused hnever hk
    rcases (h3 k).mp hk with hknown | hdone
    · exact h1 k hknown false hrefused
    · exact hnever hdone

/-- The first part of the amended C7 at the line `a:1<TAB>b:2` inserted into
a fresh table. -/
theorem schema_growth_once_witness :
    ∃ m, refEnv.unmarshal "a:1\tb:2" = .ok m ∧
      (m.keys.filter (fun k => decide (k ∉ newLTSVTable.columns))).Nodup ∧
      (Insert refEnv newLTSVTable "a:1\tb:2").1.db.schema =
        newLTSVTable.db.schema ++ m.keys.filter (fun k => decide (k ∉ newLTSVTable.columns)) ∧
      (Insert refEnv newLTSVTable "a:1\tb:2").1.columns =
        newLTSVTable.columns ∪ m.keys.toFinset ∧
      (Insert refEnv newLTSVTable "a:1\tb:2").1.db.log = newLTSVTable.db.log ++
        ((m.keys.filter (fun k => decide (k ∉ newLTSVTable.columns))).map
            (fun k => (Stmt.addColumn k, true)) ++
          [(Stmt.insertRow m.keys (m.entries.map (·.2)), true)]) :=
  (schema_growth_once refEnv newLTSVTable).1 "a:1\tb:2" (by rfl)

/-- C8 (per-line failure containment).  For every sequence of lines the rows
of the relation after the ingestion loop are the rows before followed by the
rows of the lines whose `Insert` returned no error, in input order.  An
`Insert` that returns an error, whichever step failed, adds no row; one that
returns no error adds the row of its record.  The loop goes on after every
line: running it over `l1 ++ l2` is running it over `l1` and then over `l2`;
and `main` runs the query on the table the loop leaves. -/
theorem failure_containment (E : Env) (t : ltsvTable) (lines : List String) :
    (ingest E t lines).db.rows = t.db.rows ++ acceptedRows E t lines ∧
    (∀ line, (Insert E t line).2 ≠ none → (Insert E t line).1.db.rows = t.db.rows) ∧
    (∀ line, (Insert E t line).2 = none →
      ∃ m, E.unmarshal line = .ok m ∧
        (Insert E t line).1.db.rows = t.db.rows ++ [recordRow m]) ∧
    (∀ l1 l2, ingest E t (l1 ++ l2) = ingest E (ingest E t l1) l2) ∧
    (∀ (σ : Type) (w : Writer σ) (q : String) (out : σ),
      main E w lines q out =
        match Query E (ingest E newLTSVTable lines) q with
        | .error e => .error ("failed to query: " ++ e)
        | .ok resultSet => formatRows w resultSet out) := by
  refine ⟨ingest_rows E lines t, fun line h => Insert_failed_rows h, ?_,
    fun l1 l2 => ingest_append E l1 l2 t, fun σ w q out => rfl⟩
  intro line h
  obtain ⟨m, hm, _, _, hrows, _⟩ := Insert_ok h
  exact ⟨m, hm, hrows⟩

/-- C8 at three lines of which the second has no key/value delimiter: the
relation ends up with the rows of the first and the third line, in that
order. -/
theorem failure_containment_witness :
    (ingest refEnv newLTSVTable ["a:1", "nocolon", "b:2"]).db.rows =
      [recordRow (mapOfPairs [("a", "1")]), recordRow (mapOfPairs [("b", "2")])] :=
  (failure_containment refEnv newLTSVTable ["a:1", "nocolon", "b:2"]).1

/-- C9 (null and empty string collapse).  When the engine answers the query
with the columns `columns` and the rows `rows`, `Query` returns one map per
row; replacing null cells by empty-string cells or the other way round in the
engine's rows does not change what `Query` returns; and a cell that is null
or the empty string gives its column the value `""` in the result row, which
the formatter writes as `column:` with empty text and the tab. -/
theorem null_empty_collapse (E : Env) (t : ltsvTable) (q : String) (columns : List String)
    (rows : List Cells) (h : E.eval t.db q = .ok (columns, rows)) :
    Query E t q = .ok (rows.map (scanRow columns)) ∧
    (∀ rows1 : List Cells,
      List.Forall₂ (List.Forall₂ (fun a b : Option String => a.getD "" = b.getD "")) rows rows1 →
      rows1.map (scanRow columns) = rows.map (scanRow columns)) ∧
    (∀ cells i c, columns[i]? = some c → (∀ j, i < j → columns[j]? ≠ some c) →
      (cells.getD i none = none ∨ cells.getD i none = some "") →
      (scanRow columns cells).lookup c = some "" ∧
      fieldText (scanRow columns cells) c = c ++ ":" ++ "" ++ "\t") := by
  refine ⟨by simp only [Query, h], ?_, ?_⟩
  · intro rows1 hrel
    exact map_scanRow_congr columns hrel
  · intro cells i c hi hlast hcell
    have hl := lookup_scanRow_last columns cells i c hi hlast
    have ht : cellText (cells.getD i none) = "" := by
      rcases hcell with e | e <;> rw [e] <;> rfl
    rw [ht] at hl
    exact ⟨hl, by simp [fieldText, mapIndex, hl]⟩

/-- C9 for the table holding `a:1<TAB>b:` and `a:2`, whose column `b` is
the empty string in the first row and null in the second. -/
theorem null_empty_collapse_witness :
    Query refEnv (ingest refEnv newLTSVTable ["a:1\tb:", "a:2"]) "SELECT a,b FROM ltsv" =
      .ok ([[some "1", some ""], [some "2", none]].map (scanRow ["a", "b"])) ∧
    (∀ rows1 : List Cells,
      List.Forall₂ (List.Forall₂ (fun a b : Option String => a.getD "" = b.getD ""))
        [[some "1", some ""], [some "2", none]] rows1 →
      rows1.map (scanRow ["a", "b"]) =
        [[some "1", some ""], [some "2", none]].map (scanRow ["a", "b"])) ∧
    (∀ (cells : Cells) i c, ["a", "b"][i]? = some c → (∀ j, i < j → ["a", "b"][j]? ≠ some c) →
      (cells.getD i none = none ∨ cells.getD i none = some "") →
      (scanRow ["a", "b"] cells).lookup c = some "" ∧
      fieldText (scanRow ["a", "b"] cells) c = c ++ ":" ++ "" ++ "\t") :=
  null_empty_collapse refEnv (ingest refEnv newLTSVTable ["a:1\tb:", "a:2"])
    "SELECT a,b FROM ltsv" ["a", "b"] [[some "1", some ""], [some "2", none]] (by rfl)

/-- C10 (uniform result shape).  When `Query` succeeds, the engine answered
with some columns and rows, the result has one map per row, and the key set
of every one of these maps is the set of the result column names; a column
name holds the text of the cell at its last position among the result
columns.  Hence every column of every column sequence the formatter uses on
this result is a key of every row of the result. -/
theorem uniform_result_shape (E : Env) (t : ltsvTable) (q : String) (rs : List GoMap)
    (h : Query E t q = .ok rs) :
    ∃ columns rows, E.eval t.db q = .ok (columns, rows) ∧
      rs = rows.map (scanRow columns) ∧
      (∀ r ∈ rs, ∀ c, c ∈ r.keys ↔ c ∈ columns) ∧
      (∀ cells ∈ rows, ∀ i c, columns[i]? = some c → (∀ j, i < j → columns[j]? ≠ some c) →
        (scanRow columns cells).lookup c = some (cellText (cells.getD i none))) ∧
      (∀ used ∈ columnTrace [] rs, ∀ c ∈ used, ∀ r ∈ rs, c ∈ r.keys) := by
  unfold Query at h
  rcases he : E.eval t.db q with e | ⟨columns, rows⟩
  · rw [he] at h; simp at h
  · rw [he] at h
    simp only [Except.ok.injEq] at h
    have hkeys : ∀ r ∈ rs, ∀ c, c ∈ r.keys ↔ c ∈ columns := by
      intro r hr c
      rw [← h] at hr
      obtain ⟨cells, _, rfl⟩ := List.mem_map.mp hr
      exact mem_keys_scanRow columns cells c
    refine ⟨columns, rows, rfl, h.symm, hkeys, ?_, ?_⟩
    · intro cells _ i c hi hlast
      exact lookup_scanRow_last columns cells i c hi hlast
    · intro used hused c hc r hr
      rcases mem_columnTrace rs [] used hused with e | ⟨r1, hr1, e⟩
      · rw [e] at hc; simp at hc
      · rw [e, mem_sortStrings] at hc
        exact (hkeys r hr c).mpr ((hkeys r1 hr1 c).mp hc)

/-- C10 for the worked example: both result rows have the keys `a`, `b`,
`c`. -/
theorem uniform_result_shape_witness :
    ∃ columns rows,
      refEnv.eval (ingest refEnv newLTSVTable ["a:1\tb:2", "b:3\tc:4"]).db
        "SELECT a,b,c FROM ltsv" = .ok (columns, rows) ∧
      [mapOfPairs [("a", "1"), ("b", "2"), ("c", "")],
        mapOfPairs [("a", ""), ("b", "3"), ("c", "4")]] = rows.map (scanRow columns) ∧
      (∀ r ∈ [mapOfPairs [("a", "1"), ("b", "2"), ("c", "")],
          mapOfPairs [("a", ""), ("b", "3"), ("c", "4")]], ∀ c, c ∈ r.keys ↔ c ∈ columns) ∧
      (∀ cells ∈ rows, ∀ i c, columns[i]? = some c → (∀ j, i < j → columns[j]? ≠ some c) →
        (scanRow columns cells).lookup c = some (cellText (cells.getD i none))) ∧
      (∀ used ∈ columnTrace [] [mapOfPairs [("a", "1"), ("b", "2"), ("c", "")],
          mapOfPairs [("a", ""), ("b", "3"), ("c", "4")]], ∀ c ∈ used,
        ∀ r ∈ [mapOfPairs [("a", "1"), ("b", "2"), ("c", "")],
          mapOfPairs [("a", ""), ("b", "3"), ("c", "4")]], c ∈ r.keys) :=
  uniform_result_shape refEnv (ingest refEnv newLTSVTable ["a:1\tb:2", "b:3\tc:4"])
    "SELECT a,b,c FROM ltsv" _ (by rfl)

end Ltsvq
